import Mathlib

/-!
Verification of the qPCR analysis toolkit against its specification.

The development shallowly embeds the numerical core of the toolkit:
the three multiple-comparison corrections of
src/statistical_analysis.py (qPCRStatistics.apply_multiple_comparison_correction,
_holm_correction, _fdr_correction), and the expression pipeline of
src/qpcr_analyzer.py (validate_data, calculate_technical_replicates_mean,
calculate_delta_delta_ct).  P-values and Ct values are modelled as
rationals (the Python floats carry real arithmetic); the fold-change
exponential 2^(-x) lives in the reals.  Missing values (numpy nan)
are modelled as Option.none.
-/

namespace QPCR

/-- Entry `p_values[i]` of the p-value array (0 outside the range). -/
def pval (ps : List ℚ) (i : ℕ) : ℚ := ps.getD i 0

/-- The comparison realised by `np.argsort(p_values)` on index pairs: ascending
p-value, exact ties resolved by original index.  This is a linear order on
indices, so the sorted permutation of indices is unique; the Holm and FDR
outputs are invariant under the order of tied indices, hence this models the
argsort used by the source. -/
def argRel (ps : List ℚ) (i j : ℕ) : Prop :=
  pval ps i < pval ps j ∨ (pval ps i = pval ps j ∧ i ≤ j)

instance (ps : List ℚ) : DecidableRel (argRel ps) := fun _ _ => by
  unfold argRel; infer_instance

/-- `sorted_indices = np.argsort(p_values)`: the permutation of 0..n-1 listing
the indices in ascending p-value order. -/
def argsort (ps : List ℚ) : List ℕ :=
  List.insertionSort (argRel ps) (List.range ps.length)

/-- `sorted_indices[r]`, the original index holding sorted rank r. -/
def sidx (ps : List ℚ) (r : ℕ) : ℕ := (argsort ps).getD r 0

/-- The sorted rank of original index j (position of j in sorted_indices). -/
def rankOf (ps : List ℚ) (j : ℕ) : ℕ := (argsort ps).indexOf j

/-- The value assigned by the first Holm loop at sorted rank k:
`min(1.0, p * (n - i))` with `p = sorted_p[i]`. -/
def holmPre (ps : List ℚ) (k : ℕ) : ℚ :=
  min 1 (pval ps (sidx ps k) * ((ps.length - k : ℕ) : ℚ))

/-- First loop of `_holm_correction`:
`corrected_p[sorted_indices[i]] = min(1.0, p * (n - i))` over `i in range(n)`,
the numpy array modelled as a function from positions, initialised to zeros. -/
def holmAssign (ps : List ℚ) : ℕ → ℚ :=
  (List.range ps.length).foldl
    (fun c i => Function.update c (sidx ps i) (holmPre ps i))
    (fun _ => 0)

/-- Second loop of `_holm_correction` (monotonicity repair): for `i in range(1, n)`,
`corrected_p[idx] = max(corrected_p[idx], corrected_p[prev_idx])` with
`idx = sorted_indices[i]`, `prev_idx = sorted_indices[i-1]`. -/
def holmSweep (ps : List ℚ) : ℕ → ℚ :=
  (List.range (ps.length - 1)).foldl
    (fun c k =>
      Function.update c (sidx ps (k + 1))
        (max (c (sidx ps (k + 1))) (c (sidx ps k))))
    (holmAssign ps)

/-- `_holm_correction(p_values)`: the returned array, read as a list in the
input's original row order. -/
def holmCorrection (ps : List ℚ) : List ℚ :=
  (List.range ps.length).map (holmSweep ps)

/-- The value assigned by the FDR loop at sorted rank k before flooring:
`min(1.0, sorted_p[i] * n / (i + 1))`. -/
def fdrPre (ps : List ℚ) (k : ℕ) : ℚ :=
  min 1 (pval ps (sidx ps k) * (ps.length : ℚ) / ((k : ℚ) + 1))

/-- Body of the `_fdr_correction` loop at descending index i: assign
`corrected_p[sorted_indices[i]] = min(1.0, sorted_p[i] * n / (i + 1))`, then if
`i < n - 1` replace it by the min with `corrected_p[sorted_indices[i+1]]`. -/
def fdrStep (ps : List ℚ) (i : ℕ) (c : ℕ → ℚ) : ℕ → ℚ :=
  let c' := Function.update c (sidx ps i) (fdrPre ps i)
  if i < ps.length - 1 then
    Function.update c' (sidx ps i)
      (min (c' (sidx ps i)) (c' (sidx ps (i + 1))))
  else c'

/-- The loop `for i in range(n-1, -1, -1)` of `_fdr_correction`, a fold that
processes the listed indices from the last one down to the first. -/
def fdrLoop (ps : List ℚ) (l : List ℕ) : ℕ → ℚ :=
  l.foldr (fdrStep ps) (fun _ => 0)

/-- `_fdr_correction(p_values)`: the returned array in original row order. -/
def fdrCorrection (ps : List ℚ) : List ℚ :=
  (List.range ps.length).map (fdrLoop ps (List.range ps.length))

/-- Bonferroni branch of `apply_multiple_comparison_correction`:
`corrected_p = p_values * len(p_values)` capped at 1.0 elementwise. -/
def bonferroniCorrection (ps : List ℚ) : List ℚ :=
  ps.map (fun p => min (p * (ps.length : ℚ)) 1)

/-- Prefix maximum: the increasing-order flooring sweep the spec prescribes for
Holm (each rank floored by the corrected value of the previous rank). -/
def prefMax (f : ℕ → ℚ) : ℕ → ℚ
  | 0 => f 0
  | k + 1 => max (prefMax f k) (f (k + 1))

/-- Suffix minimum over ranks k..m-1: the backward min-taking sweep the spec
prescribes for FDR-BH (each rank capped by the next less significant rank). -/
def sufMin (f : ℕ → ℚ) (m k : ℕ) : ℚ :=
  if k + 1 < m then min (f k) (sufMin f m (k + 1)) else f k
termination_by m - k
decreasing_by omega

/-- Holm as worded by the spec: sort p ascending, assign min(1, p_(k)·(m−k)) at
0-indexed sorted rank k, sweep the ranks in increasing order of p flooring each
value by the previous rank's value, and read the result back in the input's
original row order. -/
def holmSpecDef (ps : List ℚ) : List ℚ :=
  (List.range ps.length).map (fun j => prefMax (holmPre ps) (rankOf ps j))

/-- FDR-BH as worded by the spec: sort p ascending, assign min(1, p_(k)·m/(k+1))
at 1-indexed sorted rank k+1, sweep from the highest p down taking the min with
the next less significant rank, and read the result back in original row order. -/
def fdrSpecDef (ps : List ℚ) : List ℚ :=
  (List.range ps.length).map (fun j => sufMin (fdrPre ps) ps.length (rankOf ps j))

section ArgsortFacts

variable (ps : List ℚ)

lemma argsort_perm : (argsort ps).Perm (List.range ps.length) :=
  List.perm_insertionSort _ _

lemma argsort_length : (argsort ps).length = ps.length := by
  rw [(argsort_perm ps).length_eq, List.length_range]

lemma argsort_nodup : (argsort ps).Nodup :=
  ((argsort_perm ps).nodup_iff).mpr (List.nodup_range _)

lemma mem_argsort {j : ℕ} : j ∈ argsort ps ↔ j < ps.length := by
  rw [(argsort_perm ps).mem_iff, List.mem_range]

instance : IsTotal ℕ (argRel ps) := by
  constructor
  intro i j
  rcases lt_trichotomy (pval ps i) (pval ps j) with h | h | h
  · exact Or.inl (Or.inl h)
  · rcases Nat.le_total i j with hij | hij
    · exact Or.inl (Or.inr ⟨h, hij⟩)
    · exact Or.inr (Or.inr ⟨h.symm, hij⟩)
  · exact Or.inr (Or.inl h)

instance : IsTrans ℕ (argRel ps) := by
  constructor
  intro a b c hab hbc
  rcases hab with hab | ⟨hab, hab'⟩
  · rcases hbc with hbc | ⟨hbc, _⟩
    · exact Or.inl (hab.trans hbc)
    · exact Or.inl (hbc ▸ hab)
  · rcases hbc with hbc | ⟨hbc, hbc'⟩
    · exact Or.inl (hab ▸ hbc)
    · exact Or.inr ⟨hab.trans hbc, hab'.trans hbc'⟩

lemma argRel_antisymm {i j : ℕ} (h1 : argRel ps i j) (h2 : argRel ps j i) : i = j := by
  rcases h1 with h1 | ⟨h1, h1'⟩
  · rcases h2 with h2 | ⟨h2, _⟩
    · exact absurd h2 (lt_asymm h1)
    · exact absurd h2 (ne_of_gt h1)
  · rcases h2 with h2 | ⟨_, h2'⟩
    · exact absurd h1 (ne_of_gt h2)
    · exact Nat.le_antisymm h1' h2'

lemma argsort_sorted : (argsort ps).Sorted (argRel ps) :=
  List.sorted_insertionSort _ _

lemma sidx_lt {r : ℕ} (hr : r < ps.length) : sidx ps r < ps.length := by
  have hr' : r < (argsort ps).length := by rw [argsort_length]; exact hr
  have : sidx ps r ∈ argsort ps := by
    rw [sidx, List.getD_eq_getElem _ _ hr']
    exact List.getElem_mem _
  exact (mem_argsort ps).mp this

lemma sidx_inj {r s : ℕ} (hr : r < ps.length) (hs : s < ps.length)
    (h : sidx ps r = sidx ps s) : r = s := by
  have hr' : r < (argsort ps).length := by rw [argsort_length]; exact hr
  have hs' : s < (argsort ps).length := by rw [argsort_length]; exact hs
  rw [sidx, sidx, List.getD_eq_getElem _ _ hr', List.getD_eq_getElem _ _ hs'] at h
  exact ((argsort_nodup ps).getElem_inj_iff).mp h

lemma rankOf_lt {j : ℕ} (hj : j < ps.length) : rankOf ps j < ps.length := by
  have : j ∈ argsort ps := (mem_argsort ps).mpr hj
  have := List.indexOf_lt_length.mpr this
  rw [argsort_length] at this
  exact this

lemma sidx_rankOf {j : ℕ} (hj : j < ps.length) : sidx ps (rankOf ps j) = j := by
  have hm : j ∈ argsort ps := (mem_argsort ps).mpr hj
  have h1 : List.indexOf j (argsort ps) < (argsort ps).length :=
    List.indexOf_lt_length.mpr hm
  rw [sidx, rankOf, List.getD_eq_getElem _ _ h1]
  exact List.getElem_indexOf h1

lemma argRel_sidx {r s : ℕ} (hs : s < ps.length) (hrs : r ≤ s) :
    argRel ps (sidx ps r) (sidx ps s) := by
  rcases Nat.lt_or_ge r s with h | h
  · have hr : r < ps.length := h.trans hs
    have hr' : r < (argsort ps).length := by rw [argsort_length]; exact hr
    have hs' : s < (argsort ps).length := by rw [argsort_length]; exact hs
    have := (List.pairwise_iff_getElem.mp (argsort_sorted ps)) r s hr' hs' h
    rw [sidx, sidx, List.getD_eq_getElem _ _ hr', List.getD_eq_getElem _ _ hs']
    exact this
  · have : r = s := Nat.le_antisymm hrs h
    subst this
    exact Or.inr ⟨rfl, le_refl _⟩

lemma pval_sidx_mono {r s : ℕ} (hs : s < ps.length) (hrs : r ≤ s) :
    pval ps (sidx ps r) ≤ pval ps (sidx ps s) := by
  rcases argRel_sidx ps hs hrs with h | ⟨h, _⟩
  · exact le_of_lt h
  · exact le_of_eq h

lemma rankOf_mono {i j : ℕ} (hi : i < ps.length) (hj : j < ps.length)
    (h : argRel ps i j) : rankOf ps i ≤ rankOf ps j := by
  by_contra hc
  push_neg at hc
  have h2 : argRel ps (sidx ps (rankOf ps j)) (sidx ps (rankOf ps i)) :=
    argRel_sidx ps (rankOf_lt ps hi) (le_of_lt hc)
  rw [sidx_rankOf ps hi, sidx_rankOf ps hj] at h2
  have : i = j := argRel_antisymm ps h h2
  subst this
  exact absurd rfl (ne_of_gt hc)

end ArgsortFacts

section FoldUpdate

lemma foldl_update_notMem (g : ℕ → ℕ) (h : ℕ → ℚ) (L : List ℕ) (init : ℕ → ℚ)
    (x : ℕ) (hx : ∀ i ∈ L, g i ≠ x) :
    (L.foldl (fun c i => Function.update c (g i) (h i)) init) x = init x := by
  induction L generalizing init with
  | nil => rfl
  | cons a L ih =>
    simp only [List.foldl_cons]
    rw [ih _ (fun i hi => hx i (List.mem_cons_of_mem _ hi)),
      Function.update_noteq (Ne.symm (hx a (List.mem_cons_self _ _)))]

lemma foldl_update_mem (g : ℕ → ℕ) (h : ℕ → ℚ) (a : ℕ) :
    ∀ (L : List ℕ) (init : ℕ → ℚ), (L.map g).Nodup → a ∈ L →
    (L.foldl (fun c i => Function.update c (g i) (h i)) init) (g a) = h a := by
  intro L
  induction L with
  | nil => intro _ _ ha; cases ha
  | cons b L ih =>
    intro init hnd ha
    simp only [List.map_cons, List.nodup_cons] at hnd
    simp only [List.foldl_cons]
    rcases List.mem_cons.mp ha with rfl | ha'
    · rw [foldl_update_notMem g h L _ (g a)
        (fun i hi hgi => hnd.1 (hgi ▸ List.mem_map_of_mem g hi))]
      exact Function.update_same _ _ _
    · exact ih _ hnd.2 ha'

/-- The sorted index list is exactly the image of `List.range` under `sidx`. -/
lemma map_sidx_range (ps : List ℚ) :
    (List.range ps.length).map (sidx ps) = argsort ps := by
  apply List.ext_getElem
  · simp [argsort_length]
  · intro i h1 h2
    simp only [List.getElem_map, List.getElem_range]
    rw [sidx, List.getD_eq_getElem _ _ h2]

end FoldUpdate

section HolmLoops

lemma holmAssign_sidx (ps : List ℚ) (r : ℕ) (hr : r < ps.length) :
    holmAssign ps (sidx ps r) = holmPre ps r := by
  apply foldl_update_mem (sidx ps) (holmPre ps) r (List.range ps.length)
  · rw [map_sidx_range]; exact argsort_nodup ps
  · exact List.mem_range.mpr hr

lemma holmSweepInvariant (ps : List ℚ) (m : ℕ) (hm : m ≤ ps.length - 1) :
    ∀ r < ps.length,
      ((List.range m).foldl
        (fun c k =>
          Function.update c (sidx ps (k + 1))
            (max (c (sidx ps (k + 1))) (c (sidx ps k))))
        (holmAssign ps)) (sidx ps r) =
      if r ≤ m then prefMax (holmPre ps) r else holmPre ps r := by
  induction m with
  | zero =>
    intro r hr
    simp only [List.range_zero, List.foldl_nil]
    rcases Nat.eq_zero_or_pos r with rfl | hpos
    · simp [holmAssign_sidx ps 0 hr, prefMax]
    · rw [if_neg (by omega), holmAssign_sidx ps r hr]
  | succ m ih =>
    intro r hr
    have hm' : m ≤ ps.length - 1 := by omega
    have hmlt : m + 1 < ps.length := by omega
    have hmlt' : m < ps.length := by omega
    rw [List.range_succ, List.foldl_append, List.foldl_cons, List.foldl_nil]
    rcases eq_or_ne r (m + 1) with rfl | hne
    · rw [Function.update_same, ih hm' (m + 1) hr, ih hm' m hmlt',
        if_neg (by omega), if_pos (le_refl m), if_pos (le_refl (m + 1))]
      show max (holmPre ps (m + 1)) (prefMax (holmPre ps) m) = prefMax (holmPre ps) (m + 1)
      rw [prefMax, max_comm]
    · have hs : sidx ps r ≠ sidx ps (m + 1) :=
        fun h => hne (sidx_inj ps hr hmlt h)
      rw [Function.update_noteq hs, ih hm' r hr]
      rcases le_or_lt r m with hrm | hrm
      · rw [if_pos hrm, if_pos (by omega)]
      · rw [if_neg (by omega), if_neg (by omega)]

lemma holmSweep_sidx (ps : List ℚ) (r : ℕ) (hr : r < ps.length) :
    holmSweep ps (sidx ps r) = prefMax (holmPre ps) r := by
  have := holmSweepInvariant ps (ps.length - 1) (le_refl _) r hr
  rw [holmSweep, this, if_pos (by omega)]

lemma holmCorrection_getD (ps : List ℚ) (j : ℕ) (hj : j < ps.length) :
    (holmCorrection ps).getD j 0 = prefMax (holmPre ps) (rankOf ps j) := by
  have hj' : j < (List.range ps.length).length := by rw [List.length_range]; exact hj
  rw [holmCorrection, List.getD_eq_getElem _ _ (by simpa using hj')]
  simp only [List.getElem_map, List.getElem_range]
  conv_lhs => rw [show j = sidx ps (rankOf ps j) from (sidx_rankOf ps hj).symm]
  exact holmSweep_sidx ps _ (rankOf_lt ps hj)

lemma holmCorrection_length (ps : List ℚ) :
    (holmCorrection ps).length = ps.length := by
  rw [holmCorrection, List.length_map, List.length_range]

end HolmLoops

section FdrLoops

lemma sufMin_last (f : ℕ → ℚ) (m k : ℕ) (h : ¬ k + 1 < m) : sufMin f m k = f k := by
  rw [sufMin, if_neg h]

lemma sufMin_step (f : ℕ → ℚ) (m k : ℕ) (h : k + 1 < m) :
    sufMin f m k = min (f k) (sufMin f m (k + 1)) := by
  rw [sufMin, if_pos h]

lemma fdrLoopInvariant (ps : List ℚ) :
    ∀ (d j : ℕ), j + d = ps.length → ∀ r < ps.length,
      (fdrLoop ps (List.range' j d)) (sidx ps r) =
        if j ≤ r then sufMin (fdrPre ps) ps.length r else 0 := by
  intro d
  induction d with
  | zero =>
    intro j hj r hr
    rw [if_neg (by omega)]
    rfl
  | succ d ih =>
    intro j hj r hr
    have hjlt : j < ps.length := by omega
    rw [List.range'_succ]
    show fdrStep ps j (fdrLoop ps (List.range' (j + 1) d)) (sidx ps r) = _
    rw [fdrStep]
    rcases Nat.lt_or_ge j (ps.length - 1) with hcase | hcase
    · have hj1 : j + 1 < ps.length := by omega
      rw [if_pos hcase]
      rcases eq_or_ne r j with heq | hne
      · subst heq
        rw [if_pos (le_refl r), Function.update_same, Function.update_same]
        have hne1 : sidx ps (r + 1) ≠ sidx ps r :=
          fun h => absurd (sidx_inj ps hj1 hjlt h) (by omega)
        rw [Function.update_noteq hne1, ih (r + 1) (by omega) (r + 1) hj1,
          if_pos (le_refl (r + 1)), sufMin_step (fdrPre ps) ps.length r (by omega)]
      · have hs : sidx ps r ≠ sidx ps j := fun h => hne (sidx_inj ps hr hjlt h)
        rw [Function.update_noteq hs, Function.update_noteq hs,
          ih (j + 1) (by omega) r hr]
        rcases Nat.lt_or_ge r j with hrj | hrj
        · rw [if_neg (by omega), if_neg (by omega)]
        · rw [if_pos (by omega), if_pos (by omega)]
    · have hj' : j = ps.length - 1 := by omega
      rw [if_neg (by omega)]
      rcases eq_or_ne r j with heq | hne
      · subst heq
        rw [if_pos (le_refl r), Function.update_same, sufMin_last _ _ _ (by omega)]
      · have hs : sidx ps r ≠ sidx ps j := fun h => hne (sidx_inj ps hr hjlt h)
        rw [Function.update_noteq hs, ih (j + 1) (by omega) r hr,
          if_neg (by omega), if_neg (by omega)]

lemma fdrCorrection_getD (ps : List ℚ) (j : ℕ) (hj : j < ps.length) :
    (fdrCorrection ps).getD j 0 = sufMin (fdrPre ps) ps.length (rankOf ps j) := by
  have hj' : j < (List.range ps.length).length := by rw [List.length_range]; exact hj
  rw [fdrCorrection, List.getD_eq_getElem _ _ (by simpa using hj')]
  simp only [List.getElem_map, List.getElem_range]
  rw [List.range_eq_range']
  conv_lhs => rw [show j = sidx ps (rankOf ps j) from (sidx_rankOf ps hj).symm]
  rw [fdrLoopInvariant ps ps.length 0 (by omega) (rankOf ps j) (rankOf_lt ps hj),
    if_pos (Nat.zero_le _)]

lemma fdrCorrection_length (ps : List ℚ) :
    (fdrCorrection ps).length = ps.length := by
  rw [fdrCorrection, List.length_map, List.length_range]

lemma bonferroniCorrection_length (ps : List ℚ) :
    (bonferroniCorrection ps).length = ps.length := by
  rw [bonferroniCorrection, List.length_map]

end FdrLoops

section SweepOrderFacts

lemma prefMax_mono (f : ℕ → ℚ) {r s : ℕ} (h : r ≤ s) : prefMax f r ≤ prefMax f s := by
  induction s with
  | zero => rw [Nat.le_zero.mp h]
  | succ s ih =>
    rcases Nat.le_succ_iff_eq_or_le.mp h with rfl | h'
    · exact le_refl _
    · exact (ih h').trans (le_max_left _ _)

lemma le_prefMax (f : ℕ → ℚ) {t k : ℕ} (h : t ≤ k) : f t ≤ prefMax f k := by
  induction k with
  | zero => rw [Nat.le_zero.mp h]; exact le_refl _
  | succ k ih =>
    rcases Nat.le_succ_iff_eq_or_le.mp h with rfl | h'
    · exact le_max_right _ _
    · exact (ih h').trans (le_max_left _ _)

lemma prefMax_le (f : ℕ → ℚ) (c : ℚ) {k : ℕ} (h : ∀ t, t ≤ k → f t ≤ c) :
    prefMax f k ≤ c := by
  induction k with
  | zero => exact h 0 (le_refl _)
  | succ k ih =>
    exact max_le (ih fun t ht => h t (ht.trans (Nat.le_succ _)))
      (h (k + 1) (le_refl _))

lemma sufMin_le_self (f : ℕ → ℚ) (m k : ℕ) : sufMin f m k ≤ f k := by
  rw [sufMin]
  split
  · exact min_le_left _ _
  · exact le_refl _

lemma sufMin_mono (f : ℕ → ℚ) (m : ℕ) {k l : ℕ} (hkl : k ≤ l) (hl : l < m) :
    sufMin f m k ≤ sufMin f m l := by
  induction l, hkl using Nat.le_induction with
  | base => exact le_refl _
  | succ l hkl ih =>
    exact (ih (by omega)).trans
      ((sufMin_step f m l (by omega)).le.trans (min_le_right _ _))

lemma le_sufMin (f : ℕ → ℚ) (m : ℕ) (c : ℚ) :
    ∀ (d k : ℕ), m ≤ k + d → k < m → (∀ t, k ≤ t → t < m → c ≤ f t) →
      c ≤ sufMin f m k := by
  intro d
  induction d with
  | zero => intro k hk hk' _; omega
  | succ d ih =>
    intro k hk hk' h
    rw [sufMin]
    split
    · have hlt : k + 1 < m := by omega
      exact le_min (h k (le_refl _) hk')
        (ih (k + 1) (by omega) hlt (fun t ht htm => h t (by omega) htm))
    · exact h k (le_refl _) hk'

end SweepOrderFacts

section CorrectionEntries

lemma pval_mem (ps : List ℚ) {j : ℕ} (hj : j < ps.length) : pval ps j ∈ ps := by
  rw [pval, List.getD_eq_getElem _ _ hj]
  exact List.getElem_mem _

lemma bonferroniCorrection_getD (ps : List ℚ) (j : ℕ) (hj : j < ps.length) :
    (bonferroniCorrection ps).getD j 0 = min (pval ps j * (ps.length : ℚ)) 1 := by
  have hj' : j < (bonferroniCorrection ps).length := by
    rw [bonferroniCorrection_length]; exact hj
  rw [bonferroniCorrection, List.getD_eq_getElem _ _ (by simpa [bonferroniCorrection] using hj')]
  simp only [List.getElem_map]
  rw [pval, List.getD_eq_getElem _ _ hj]

end CorrectionEntries

/-- Claim C1: for every list of raw p-values, the Holm and the FDR-BH corrected
sequences are monotonically non-decreasing when read in ascending order of the
raw p-values, exact ties broken by original input index (the earlier index is
the more significant comparison). -/
theorem c1_holm_fdr_monotone (ps : List ℚ) (i j : ℕ) (hi : i < ps.length)
    (hj : j < ps.length)
    (hij : pval ps i < pval ps j ∨ (pval ps i = pval ps j ∧ i ≤ j)) :
    (holmCorrection ps).getD i 0 ≤ (holmCorrection ps).getD j 0 ∧
      (fdrCorrection ps).getD i 0 ≤ (fdrCorrection ps).getD j 0 := by
  have hrank : rankOf ps i ≤ rankOf ps j := rankOf_mono ps hi hj hij
  constructor
  · rw [holmCorrection_getD ps i hi, holmCorrection_getD ps j hj]
    exact prefMax_mono _ hrank
  · rw [fdrCorrection_getD ps i hi, fdrCorrection_getD ps j hj]
    exact sufMin_mono _ _ hrank (rankOf_lt ps hj)

/-- Witness for C1 at the concrete input [1/2, 1/4, 3/4], indices 1 and 0. -/
theorem c1_holm_fdr_monotone_witness :
    (holmCorrection [1/2, 1/4, 3/4]).getD 1 0 ≤ (holmCorrection [1/2, 1/4, 3/4]).getD 0 0 ∧
      (fdrCorrection [1/2, 1/4, 3/4]).getD 1 0 ≤ (fdrCorrection [1/2, 1/4, 3/4]).getD 0 0 :=
  c1_holm_fdr_monotone [1/2, 1/4, 3/4] 1 0 (by norm_num) (by norm_num)
    (Or.inl (by norm_num [pval]))

/-- Claim C2: the Holm correction sorts the m p-values ascending, assigns
min(1, p_(k)·(m−k)) at each 0-indexed sorted rank k, sweeps the ranks in
increasing order of p flooring each value by the previous (smaller-p) rank's
corrected value, and returns the corrected values in the input's original row
order. -/
theorem c2_holm_matches_description (ps : List ℚ) :
    holmCorrection ps = holmSpecDef ps := by
  apply List.ext_getElem
  · rw [holmCorrection_length, holmSpecDef, List.length_map, List.length_range]
  · intro n h1 h2
    have hn : n < ps.length := by
      rw [holmCorrection_length] at h1; exact h1
    have hL : (holmCorrection ps)[n] = prefMax (holmPre ps) (rankOf ps n) := by
      rw [← List.getD_eq_getElem _ 0 h1, holmCorrection_getD ps n hn]
    rw [hL]
    simp only [holmSpecDef, List.getElem_map, List.getElem_range]

/-- Claim C3: the FDR-BH correction sorts the m p-values ascending, assigns
min(1, p_(k)·m/(k+1)) at 1-indexed sorted rank k+1, sweeps from the highest p
to the lowest replacing each value by the min of itself and the next less
significant rank's value, and returns the corrected values in original row
order. -/
theorem c3_fdr_matches_description (ps : List ℚ) :
    fdrCorrection ps = fdrSpecDef ps := by
  apply List.ext_getElem
  · rw [fdrCorrection_length, fdrSpecDef, List.length_map, List.length_range]
  · intro n h1 h2
    have hn : n < ps.length := by
      rw [fdrCorrection_length] at h1; exact h1
    have hL : (fdrCorrection ps)[n] = sufMin (fdrPre ps) ps.length (rankOf ps n) := by
      rw [← List.getD_eq_getElem _ 0 h1, fdrCorrection_getD ps n hn]
    rw [hL]
    simp only [fdrSpecDef, List.getElem_map, List.getElem_range]

/-- Claim C5: every FDR-BH corrected p-value is at most the Bonferroni
corrected p-value computed from the same input set, for input sets of more
than one p-value. -/
theorem c5_fdr_le_bonferroni (ps : List ℚ) (hps : ∀ p ∈ ps, 0 ≤ p ∧ p ≤ 1)
    (hlen : 1 < ps.length) (j : ℕ) (hj : j < ps.length) :
    (fdrCorrection ps).getD j 0 ≤ (bonferroniCorrection ps).getD j 0 := by
  rw [fdrCorrection_getD ps j hj, bonferroniCorrection_getD ps j hj]
  have h0 : 0 ≤ pval ps j := (hps _ (pval_mem ps hj)).1
  refine (sufMin_le_self _ _ _).trans ?_
  rw [fdrPre, sidx_rankOf ps hj]
  apply le_min
  · refine (min_le_right _ _).trans ?_
    exact div_le_self (mul_nonneg h0 (Nat.cast_nonneg _))
      (le_add_of_nonneg_left (Nat.cast_nonneg _))
  · exact min_le_left _ _

/-- Witness for C5 at the concrete input [1/2, 1/4], index 0. -/
theorem c5_fdr_le_bonferroni_witness :
    (fdrCorrection [1/2, 1/4]).getD 0 0 ≤ (bonferroniCorrection [1/2, 1/4]).getD 0 0 :=
  c5_fdr_le_bonferroni [1/2, 1/4] (by norm_num) (by norm_num) 0 (by norm_num)

/-- Claim C10: for raw p-values in [0, 1], every Bonferroni, Holm and FDR-BH
corrected value is at least its raw p-value and at most 1. -/
theorem c10_corrected_bounds (ps : List ℚ) (hps : ∀ p ∈ ps, 0 ≤ p ∧ p ≤ 1)
    (j : ℕ) (hj : j < ps.length) :
    (pval ps j ≤ (bonferroniCorrection ps).getD j 0 ∧
        (bonferroniCorrection ps).getD j 0 ≤ 1) ∧
      (pval ps j ≤ (holmCorrection ps).getD j 0 ∧
        (holmCorrection ps).getD j 0 ≤ 1) ∧
      (pval ps j ≤ (fdrCorrection ps).getD j 0 ∧
        (fdrCorrection ps).getD j 0 ≤ 1) := by
  obtain ⟨h0, h1⟩ := hps _ (pval_mem ps hj)
  have hlen1 : (1 : ℚ) ≤ (ps.length : ℚ) := by
    rw [Nat.one_le_cast]; omega
  refine ⟨⟨?_, ?_⟩, ⟨?_, ?_⟩, ⟨?_, ?_⟩⟩
  · rw [bonferroniCorrection_getD ps j hj]
    exact le_min (le_mul_of_one_le_right h0 hlen1) h1
  · rw [bonferroniCorrection_getD ps j hj]
    exact min_le_right _ _
  · rw [holmCorrection_getD ps j hj]
    refine le_trans ?_ (le_prefMax (holmPre ps) (le_refl (rankOf ps j)))
    rw [holmPre, sidx_rankOf ps hj]
    refine le_min h1 (le_mul_of_one_le_right h0 ?_)
    rw [Nat.one_le_cast]
    have := rankOf_lt ps hj
    omega
  · rw [holmCorrection_getD ps j hj]
    exact prefMax_le _ _ (fun t _ => min_le_left _ _)
  · rw [fdrCorrection_getD ps j hj]
    refine le_sufMin _ _ _ ps.length (rankOf ps j) (by omega) (rankOf_lt ps hj) ?_
    intro t ht htm
    have hpt : pval ps j ≤ pval ps (sidx ps t) := by
      have h' := pval_sidx_mono ps htm ht
      rw [sidx_rankOf ps hj] at h'
      exact h'
    rw [fdrPre]
    refine le_min h1 ?_
    refine hpt.trans ?_
    rw [le_div_iff (by positivity)]
    refine mul_le_mul_of_nonneg_left ?_ (h0.trans hpt)
    rw [show ((t : ℚ) + 1) = ((t + 1 : ℕ) : ℚ) by push_cast; ring, Nat.cast_le]
    omega
  · rw [fdrCorrection_getD ps j hj]
    exact (sufMin_le_self _ _ _).trans (min_le_left _ _)

/-- Witness for C10 at the concrete input [1/2, 1/4], index 1. -/
theorem c10_corrected_bounds_witness :
    (pval [1/2, 1/4] 1 ≤ (bonferroniCorrection [1/2, 1/4]).getD 1 0 ∧
        (bonferroniCorrection [1/2, 1/4]).getD 1 0 ≤ 1) ∧
      (pval [1/2, 1/4] 1 ≤ (holmCorrection [1/2, 1/4]).getD 1 0 ∧
        (holmCorrection [1/2, 1/4]).getD 1 0 ≤ 1) ∧
      (pval [1/2, 1/4] 1 ≤ (fdrCorrection [1/2, 1/4]).getD 1 0 ∧
        (fdrCorrection [1/2, 1/4]).getD 1 0 ≤ 1) :=
  c10_corrected_bounds [1/2, 1/4] (by norm_num) 1 (by norm_num)

/-- One raw qPCR measurement row (the columns the analyzer reads). -/
structure Measurement where
  sample_id : String
  gene : String
  condition : String
  biological_rep : String
  ct_value : ℚ
deriving DecidableEq

/-- A loaded CSV table: the set of columns present in the file together with
its rows.  A column missing from cols models a CSV lacking that column; the
corresponding record fields of rows are then irrelevant. -/
structure RawData where
  cols : List String
  rows : List Measurement

/-- The required_columns list of validate_data. -/
def requiredColumns : List String := ["Sample_ID", "Gene", "Condition", "Ct_Value"]

/-- missing_columns: the required columns not present in the data. -/
def missingColumns (cols : List String) : List String :=
  requiredColumns.filter (fun c => decide (c ∉ cols))

/-- validate_data: raises ValueError (the missing-required-column failure) when
any required column is absent; the remaining checks only add warnings and do
not affect control flow. -/
def validate_data (cols : List String) : Except String Unit :=
  if missingColumns cols = [] then Except.ok ()
  else
    Except.error
      ("Missing required columns: " ++ String.intercalate ", " (missingColumns cols))

/-- The grouping key (Sample_ID, Gene, Condition, Biological_Rep). -/
def groupKey (m : Measurement) : String × String × String × String :=
  (m.sample_id, m.gene, m.condition, m.biological_rep)

/-- The distinct elements of a list in order of first appearance (the keys a
groupby produces, one output row per distinct key). -/
def distinctKeys {α : Type} [DecidableEq α] (l : List α) : List α :=
  l.foldl (fun acc a => if a ∈ acc then acc else acc ++ [a]) []

/-- Mean of a list of rationals, sum over count. -/
def listMean (xs : List ℚ) : ℚ := xs.sum / (xs.length : ℚ)

/-- Sample standard deviation with ddof = 1 as produced by the pandas std
aggregation: the square root of the unbiased variance, undefined (NaN) for
fewer than two values. -/
noncomputable def listStd (xs : List ℚ) : Option ℝ :=
  if 2 ≤ xs.length then
    some (Real.sqrt
      ((xs.map (fun (x : ℚ) => ((x : ℝ) - ((listMean xs : ℚ) : ℝ)) ^ 2)).sum /
        ((xs.length : ℝ) - 1)))
  else none

/-- One row of the processed table: Ct_Mean, Ct_Std, Tech_Rep_Count. -/
structure ProcessedRow where
  sample_id : String
  gene : String
  condition : String
  biological_rep : String
  ct_mean : ℚ
  ct_std : Option ℝ
  tech_rep_count : ℕ

/-- The groupby-and-agg of calculate_technical_replicates_mean: one output row
per distinct key, carrying mean, std and count of the Ct values of the group. -/
noncomputable def groupMeans (rows : List Measurement) : List ProcessedRow :=
  (distinctKeys (rows.map groupKey)).map (fun k =>
    let g := (rows.filter (fun m => decide (groupKey m = k))).map (fun m => m.ct_value)
    { sample_id := k.1, gene := k.2.1, condition := k.2.2.1,
      biological_rep := k.2.2.2, ct_mean := listMean g, ct_std := listStd g,
      tech_rep_count := g.length })

/-- The columns touched by the groupby/agg of calculate_technical_replicates_mean. -/
def aggColumns : List String :=
  ["Sample_ID", "Gene", "Condition", "Biological_Rep", "Ct_Value"]

/-- calculate_technical_replicates_mean: the method itself performs no schema
check; the pandas groupby raises a KeyError when a grouping or aggregation
column is absent, and aggregates otherwise. -/
noncomputable def calculate_technical_replicates_mean (df : RawData) :
    Except String (List ProcessedRow) :=
  if aggColumns.all (fun c => df.cols.contains c) then Except.ok (groupMeans df.rows)
  else Except.error "KeyError: missing groupby column"

/-- The opening part of run_complete_analysis relevant to the averaging step:
validate_data runs before calculate_technical_replicates_mean, so a schema
failure aborts the run before any grouping is attempted. -/
noncomputable def runToAveraging (df : RawData) : Except String (List ProcessedRow) :=
  (validate_data df.cols).bind (fun _ => calculate_technical_replicates_mean df)

/-- One row of the ΔCt table (the fields calculate_delta_delta_ct reads). -/
structure DeltaCtRow where
  sample_id : String
  condition : String
  biological_rep : String
  target_gene : String
  delta_ct : ℚ
deriving DecidableEq

/-- control_delta_ct: the per-gene mean of Delta_Ct over rows of the control
condition, with the dict lookup default nan modelled as Option.none for genes
without control rows. -/
def controlMeanDeltaCt (ctrl : String) (rows : List DeltaCtRow) (gene : String) :
    Option ℚ :=
  let cs := (rows.filter
    (fun r => decide (r.condition = ctrl ∧ r.target_gene = gene))).map
      (fun r => r.delta_ct)
  if cs.isEmpty then none else some (listMean cs)

/-- One output row of calculate_delta_delta_ct. -/
structure DeltaDeltaCtRow where
  sample_id : String
  condition : String
  biological_rep : String
  target_gene : String
  delta_ct : ℚ
  control_mean_delta_ct : Option ℚ
  delta_delta_ct : Option ℚ
  fold_change : Option ℝ

/-- fold_change = 2 ** (-delta_delta_ct) when the exponent is defined, nan
(undefined) otherwise. -/
noncomputable def foldChangeOf (d : Option ℚ) : Option ℝ :=
  d.map (fun (x : ℚ) => (2 : ℝ) ^ (-(x : ℝ)))

/-- calculate_delta_delta_ct: for each target gene in order of first
appearance and for each of that gene's ΔCt rows, subtract the gene's control
baseline and exponentiate; an undefined baseline propagates as undefined in
delta_delta_ct and fold_change, and no error is raised. -/
noncomputable def calculate_delta_delta_ct (ctrl : String) (rows : List DeltaCtRow) :
    List DeltaDeltaCtRow :=
  (distinctKeys (rows.map (fun r => r.target_gene))).flatMap (fun g =>
    (rows.filter (fun r => decide (r.target_gene = g))).map (fun r =>
      let cm := controlMeanDeltaCt ctrl rows g
      let dd := cm.map (fun c => r.delta_ct - c)
      { sample_id := r.sample_id, condition := r.condition,
        biological_rep := r.biological_rep, target_gene := r.target_gene,
        delta_ct := r.delta_ct, control_mean_delta_ct := cm,
        delta_delta_ct := dd, fold_change := foldChangeOf dd }))

/-- An untyped cell value of a results table. -/
inductive Val where
  | s : String → Val
  | q : ℚ → Val
  | b : Bool → Val
deriving DecidableEq

/-- A results-table row: an association list from column names to values. -/
abbrev TRow := List (String × Val)

/-- A results table (pandas DataFrame): a list of rows. -/
abbrev Table := List TRow

/-- The p-value column entry of a row. -/
def getPVal (row : TRow) : ℚ :=
  match row.lookup "P_Value" with
  | some (Val.q p) => p
  | _ => 0

/-- The qPCRStatistics instance state: alpha and the results dict. -/
structure StatState where
  alpha : ℚ
  results : List (String × Table)

/-- Lookup in the results dict. -/
def dictGet (k : String) (d : List (String × Table)) : Option Table := d.lookup k

/-- Python dict assignment: replace an existing binding in place, otherwise
append a new binding at the end. -/
def dictSet (k : String) (v : Table) : List (String × Table) → List (String × Table)
  | [] => [(k, v)]
  | kv :: d => if kv.1 = k then (k, v) :: d else kv :: dictSet k v d

/-- The three-way correction dispatch of apply_multiple_comparison_correction. -/
def correctionFor (method : String) (ps : List ℚ) : List ℚ :=
  if method = "bonferroni" then bonferroniCorrection ps
  else if method = "holm" then holmCorrection ps
  else fdrCorrection ps

/-- apply_multiple_comparison_correction: copies the stored ttest table, adds
the corrected p-value and corrected significance columns to the copy, stores
the copy in the results dict under key ttest_ followed by the method name, and
returns the copy.  The two error branches mirror the two ValueError raises. -/
def apply_multiple_comparison_correction (st : StatState) (method : String) :
    Except String (StatState × Table) :=
  match dictGet "ttest" st.results with
  | none => Except.error "No t-test results found. Run perform_ttest first."
  | some tbl =>
    if method = "bonferroni" ∨ method = "holm" ∨ method = "fdr_bh" then
      let cps := correctionFor method (tbl.map getPVal)
      let newTbl := (tbl.zip cps).map (fun rc =>
        rc.1 ++ [("P_Value_" ++ method.toUpper, Val.q rc.2),
          ("Significant_" ++ method.toUpper, Val.b (decide (rc.2 < st.alpha)))])
      Except.ok
        ({ st with results := dictSet ("ttest_" ++ method) newTbl st.results }, newTbl)
    else Except.error "method must be bonferroni, holm, or fdr_bh"

section MeanStdFacts

lemma listMean_replicate (n : ℕ) (v : ℚ) (hn : n ≠ 0) :
    listMean (List.replicate n v) = v := by
  rw [listMean, List.sum_replicate, List.length_replicate, nsmul_eq_mul,
    mul_div_cancel_left₀ v (Nat.cast_ne_zero.mpr hn)]

lemma listStd_replicate (n : ℕ) (v : ℚ) (hn : 2 ≤ n) :
    listStd (List.replicate n v) = some 0 := by
  rw [listStd, if_pos (by rw [List.length_replicate]; exact hn)]
  congr 1
  rw [listMean_replicate n v (by omega), List.map_replicate]
  simp

end MeanStdFacts

/-- Claim C7 counterexample: a table whose columns are exactly Sample_ID,
Gene, Condition, Ct_Value — biological_replicate absent — passes the schema
check of validate_data, and the run then fails during the grouping itself with
a key error, not with the missing-required-column error: a missing
biological_replicate does not produce the SchemaError before grouping. -/
theorem c7_biological_rep_not_schema_checked :
    validate_data ["Sample_ID", "Gene", "Condition", "Ct_Value"] = Except.ok () ∧
      runToAveraging ⟨["Sample_ID", "Gene", "Condition", "Ct_Value"], []⟩ =
        Except.error "KeyError: missing groupby column" := by
  constructor
  · rfl
  · rfl

/-- Claim C7 amended: the run aborts with the missing-required-column error
before any grouping exactly when one of Sample_ID, Gene, Condition, Ct_Value
is absent; Biological_Rep is not part of that check. -/
theorem c7_schema_error_aborts_before_grouping (df : RawData)
    (h : ∃ c ∈ requiredColumns, c ∉ df.cols) :
    runToAveraging df =
      Except.error
        ("Missing required columns: " ++
          String.intercalate ", " (missingColumns df.cols)) := by
  have hne : missingColumns df.cols ≠ [] := by
    obtain ⟨c, hc, hc'⟩ := h
    exact List.ne_nil_of_mem
      (List.mem_filter.mpr ⟨hc, decide_eq_true hc'⟩)
  rw [runToAveraging, validate_data, if_neg hne]
  rfl

/-- Witness for the amended C7 at a concrete table lacking the Gene column. -/
theorem c7_schema_error_witness :
    runToAveraging ⟨["Sample_ID", "Condition", "Ct_Value", "Biological_Rep"], []⟩ =
      Except.error
        ("Missing required columns: " ++
          String.intercalate ", "
            (missingColumns ["Sample_ID", "Condition", "Ct_Value", "Biological_Rep"])) :=
  c7_schema_error_aborts_before_grouping
    ⟨["Sample_ID", "Condition", "Ct_Value", "Biological_Rep"], []⟩
    ⟨"Gene", by decide, by decide⟩

/-- Claim C9 counterexample: a group holding a single technical replicate
trivially has all its Ct values identical, yet the sample standard deviation
(ddof = 1) of a singleton is NaN: the produced std_ct is undefined, not 0. -/
theorem c9_single_replicate_std_undefined :
    ((groupMeans [⟨"S1", "GAPDH", "Control", "1", 20⟩]).map (fun r => r.ct_std)) =
        [none] ∧
      ((groupMeans [⟨"S1", "GAPDH", "Control", "1", 20⟩]).map (fun r => r.ct_mean)) =
        [(20 : ℚ)] := by
  constructor
  · simp [groupMeans, distinctKeys, groupKey, listStd]
  · norm_num [groupMeans, distinctKeys, groupKey, listMean]

/-- Claim C9 amended: every group of at least two technical replicates that
all share one Ct value is averaged to mean_ct exactly the shared value and
std_ct exactly 0 (a singleton group instead has an undefined std_ct). -/
theorem c9_identical_replicates_exact (rows : List Measurement) (v : ℚ)
    (r : ProcessedRow) (hr : r ∈ groupMeans rows)
    (hv : ∀ m ∈ rows,
      groupKey m = (r.sample_id, r.gene, r.condition, r.biological_rep) →
      m.ct_value = v)
    (h2 : 2 ≤ r.tech_rep_count) :
    r.ct_mean = v ∧ r.ct_std = some 0 := by
  rw [groupMeans, List.mem_map] at hr
  obtain ⟨k, hk, hrk⟩ := hr
  obtain ⟨a, b, c, d⟩ := k
  subst hrk
  have hall : ∀ x ∈ (rows.filter
      (fun m => decide (groupKey m = (a, b, c, d)))).map (fun m => m.ct_value),
      x = v := by
    intro x hx
    rw [List.mem_map] at hx
    obtain ⟨m, hm, rfl⟩ := hx
    rw [List.mem_filter] at hm
    exact hv m hm.1 (of_decide_eq_true hm.2)
  have hrep := List.eq_replicate_of_mem hall
  have h2' : 2 ≤ ((rows.filter
      (fun m => decide (groupKey m = (a, b, c, d)))).map
        (fun m => m.ct_value)).length := h2
  constructor
  · show listMean ((rows.filter
      (fun m => decide (groupKey m = (a, b, c, d)))).map (fun m => m.ct_value)) = v
    rw [hrep, listMean_replicate _ _ (by omega)]
  · show listStd ((rows.filter
      (fun m => decide (groupKey m = (a, b, c, d)))).map (fun m => m.ct_value)) = some 0
    rw [hrep, listStd_replicate _ _ h2']

/-- The two-identical-replicate group used to witness the amended C9. -/
def c9RowsW : List Measurement :=
  [⟨"S1", "IL6", "Control", "1", 20⟩, ⟨"S1", "IL6", "Control", "1", 20⟩]

/-- The single processed row the averaging step produces on c9RowsW. -/
noncomputable def c9RowW : ProcessedRow :=
  { sample_id := "S1", gene := "IL6", condition := "Control",
    biological_rep := "1",
    ct_mean := listMean [20, 20], ct_std := listStd [20, 20],
    tech_rep_count := 2 }

/-- Witness for the amended C9 at the concrete two-replicate group. -/
theorem c9_identical_replicates_witness :
    c9RowW ∈ groupMeans c9RowsW ∧ c9RowW.ct_mean = 20 ∧ c9RowW.ct_std = some 0 := by
  have hm : c9RowW ∈ groupMeans c9RowsW := by
    simp [groupMeans, distinctKeys, groupKey, c9RowsW, c9RowW]
  exact ⟨hm, c9_identical_replicates_exact c9RowsW 20 c9RowW hm
    (by decide) (by norm_num [c9RowW])⟩

section FoldChangeFacts

lemma foldChangeOf_eq (d : ℚ) (o : Option ℚ) (h : o = some d) :
    foldChangeOf o = some ((2 : ℝ) ^ (-(d : ℝ))) := by
  subst h; rfl

lemma foldChangeOf_pos (o : Option ℚ) (v : ℝ) (h : foldChangeOf o = some v) :
    0 < v := by
  rcases o with _ | x
  · cases h
  · rw [foldChangeOf, Option.map_some'] at h
    injection h with h
    rw [← h]
    exact Real.rpow_pos_of_pos (by norm_num) _

end FoldChangeFacts

/-- Claim C4: in every ΔΔCt output row in which the value is defined, the fold
change equals 2^(-delta_delta_ct) exactly and is strictly positive; a defined
fold change is never zero or negative. -/
theorem c4_fold_change_exp_positive (ctrl : String) (rows : List DeltaCtRow)
    (r : DeltaDeltaCtRow) (hr : r ∈ calculate_delta_delta_ct ctrl rows) :
    (∀ d : ℚ, r.delta_delta_ct = some d →
        r.fold_change = some ((2 : ℝ) ^ (-(d : ℝ)))) ∧
      ∀ v : ℝ, r.fold_change = some v → 0 < v := by
  rw [calculate_delta_delta_ct, List.mem_flatMap] at hr
  obtain ⟨g, hg, hr⟩ := hr
  rw [List.mem_map] at hr
  obtain ⟨r0, hr0, hrr⟩ := hr
  subst hrr
  exact ⟨fun d hd => foldChangeOf_eq d _ hd, fun v hv => foldChangeOf_pos _ v hv⟩

/-- The one-row ΔCt table used to witness C4. -/
def c4RowsW : List DeltaCtRow := [⟨"S1", "Control", "1", "IL6", 4⟩]

/-- The single ΔΔCt row the computation produces on c4RowsW. -/
noncomputable def c4RowW : DeltaDeltaCtRow :=
  { sample_id := "S1", condition := "Control", biological_rep := "1",
    target_gene := "IL6", delta_ct := 4,
    control_mean_delta_ct := controlMeanDeltaCt "Control" c4RowsW "IL6",
    delta_delta_ct :=
      (controlMeanDeltaCt "Control" c4RowsW "IL6").map (fun c => 4 - c),
    fold_change :=
      foldChangeOf
        ((controlMeanDeltaCt "Control" c4RowsW "IL6").map (fun c => 4 - c)) }

/-- Witness for C4 at the concrete one-row table. -/
theorem c4_fold_change_witness :
    c4RowW ∈ calculate_delta_delta_ct "Control" c4RowsW ∧
      ∀ v : ℝ, c4RowW.fold_change = some v → 0 < v := by
  have hm : c4RowW ∈ calculate_delta_delta_ct "Control" c4RowsW := by
    simp [calculate_delta_delta_ct, distinctKeys, c4RowsW, c4RowW]
  exact ⟨hm, (c4_fold_change_exp_positive "Control" c4RowsW c4RowW hm).2⟩

section ControlMeanFacts

lemma controlMeanDeltaCt_eq_none (ctrl : String) (rows : List DeltaCtRow)
    (g : String) (hg : ∀ r ∈ rows, r.condition = ctrl → r.target_gene ≠ g) :
    controlMeanDeltaCt ctrl rows g = none := by
  have hnil : (rows.filter
      (fun r => decide (r.condition = ctrl ∧ r.target_gene = g))) = [] := by
    rw [List.filter_eq_nil_iff]
    intro r hr hdec
    obtain ⟨h1, h2⟩ := of_decide_eq_true hdec
    exact hg r hr h1 h2
  rw [controlMeanDeltaCt, hnil]
  rfl

lemma controlMeanDeltaCt_eq_some (ctrl : String) (rows : List DeltaCtRow)
    (g : String) (hg : ∃ r ∈ rows, r.condition = ctrl ∧ r.target_gene = g) :
    ∃ c, controlMeanDeltaCt ctrl rows g = some c := by
  obtain ⟨r, hr, h1, h2⟩ := hg
  have hmem : r.delta_ct ∈ (rows.filter
      (fun r => decide (r.condition = ctrl ∧ r.target_gene = g))).map
        (fun r => r.delta_ct) :=
    List.mem_map_of_mem _ (List.mem_filter.mpr ⟨hr, decide_eq_true ⟨h1, h2⟩⟩)
  have hne : ¬ ((rows.filter
      (fun r => decide (r.condition = ctrl ∧ r.target_gene = g))).map
        (fun r => r.delta_ct)).isEmpty = true := by
    intro hemp
    exact List.ne_nil_of_mem hmem (List.isEmpty_iff.mp hemp)
  rw [controlMeanDeltaCt]
  exact ⟨_, if_neg hne⟩

end ControlMeanFacts

/-- Claim C6: a gene with zero control-condition ΔCt rows yields an undefined
control baseline and undefined delta_delta_ct and fold_change in each of its
output rows (not zero-filled), the computation raises no error, and any gene
that does have a control row still gets fully defined values. -/
theorem c6_missing_control_undefined (ctrl : String) (rows : List DeltaCtRow)
    (g : String) (hg : ∀ r ∈ rows, r.condition = ctrl → r.target_gene ≠ g) :
    (∀ r ∈ calculate_delta_delta_ct ctrl rows, r.target_gene = g →
        r.control_mean_delta_ct = none ∧ r.delta_delta_ct = none ∧
          r.fold_change = none) ∧
      ∀ g', (∃ r ∈ rows, r.condition = ctrl ∧ r.target_gene = g') →
        ∀ r ∈ calculate_delta_delta_ct ctrl rows, r.target_gene = g' →
          (∃ c, r.control_mean_delta_ct = some c) ∧
            (∃ q, r.delta_delta_ct = some q) ∧ ∃ v, r.fold_change = some v := by
  constructor
  · intro r hr hrg
    rw [calculate_delta_delta_ct, List.mem_flatMap] at hr
    obtain ⟨g0, hg0, hr⟩ := hr
    rw [List.mem_map] at hr
    obtain ⟨r0, hr0, hrr⟩ := hr
    subst hrr
    have hfilt : r0.target_gene = g0 :=
      of_decide_eq_true (List.mem_filter.mp hr0).2
    have hg0g : g0 = g := by rw [← hfilt]; exact hrg
    subst hg0g
    have hnone := controlMeanDeltaCt_eq_none ctrl rows g0 hg
    refine ⟨?_, ?_, ?_⟩
    · exact hnone
    · show (controlMeanDeltaCt ctrl rows g0).map (fun c => r0.delta_ct - c) = none
      rw [hnone]; rfl
    · show foldChangeOf
        ((controlMeanDeltaCt ctrl rows g0).map (fun c => r0.delta_ct - c)) = none
      rw [hnone]; rfl
  · intro g' hex r hr hrg
    rw [calculate_delta_delta_ct, List.mem_flatMap] at hr
    obtain ⟨g0, hg0, hr⟩ := hr
    rw [List.mem_map] at hr
    obtain ⟨r0, hr0, hrr⟩ := hr
    subst hrr
    have hfilt : r0.target_gene = g0 :=
      of_decide_eq_true (List.mem_filter.mp hr0).2
    have hg0g : g0 = g' := by rw [← hfilt]; exact hrg
    subst hg0g
    obtain ⟨c, hc⟩ := controlMeanDeltaCt_eq_some ctrl rows g0 hex
    refine ⟨⟨c, hc⟩, ⟨r0.delta_ct - c, ?_⟩,
      ⟨(2 : ℝ) ^ (-((r0.delta_ct - c : ℚ) : ℝ)), ?_⟩⟩
    · show (controlMeanDeltaCt ctrl rows g0).map (fun c => r0.delta_ct - c) = _
      rw [hc]; rfl
    · show foldChangeOf
        ((controlMeanDeltaCt ctrl rows g0).map (fun c => r0.delta_ct - c)) = _
      rw [hc]; rfl

/-- The ΔCt table used to witness C6: gene TNF has no control rows, gene IL6
has one. -/
def c6RowsW : List DeltaCtRow :=
  [⟨"S1", "Treatment", "1", "TNF", 2⟩, ⟨"S1", "Control", "1", "IL6", 3⟩,
    ⟨"S1", "Treatment", "1", "IL6", 5⟩]

/-- Witness for C6 at the concrete two-gene table. -/
theorem c6_missing_control_witness :
    (∀ r ∈ calculate_delta_delta_ct "Control" c6RowsW, r.target_gene = "TNF" →
        r.control_mean_delta_ct = none ∧ r.delta_delta_ct = none ∧
          r.fold_change = none) ∧
      ∀ g', (∃ r ∈ c6RowsW, r.condition = "Control" ∧ r.target_gene = g') →
        ∀ r ∈ calculate_delta_delta_ct "Control" c6RowsW, r.target_gene = g' →
          (∃ c, r.control_mean_delta_ct = some c) ∧
            (∃ q, r.delta_delta_ct = some q) ∧ ∃ v, r.fold_change = some v :=
  c6_missing_control_undefined "Control" c6RowsW "TNF" (by decide)

section DictFacts

lemma dictGet_dictSet_self (k : String) (v : Table) (d : List (String × Table)) :
    dictGet k (dictSet k v d) = some v := by
  induction d with
  | nil => simp [dictSet, dictGet, List.lookup]
  | cons kv d ih =>
    obtain ⟨k0, t⟩ := kv
    rw [dictSet]
    by_cases h : k0 = k
    · rw [if_pos h]
      simp [dictGet, List.lookup]
    · rw [if_neg h]
      simpa [dictGet, List.lookup_cons,
        beq_eq_false_iff_ne.mpr (Ne.symm h)] using ih

lemma dictGet_dictSet_ne (k k' : String) (v : Table) (d : List (String × Table))
    (h : k' ≠ k) : dictGet k' (dictSet k v d) = dictGet k' d := by
  induction d with
  | nil => simp [dictSet, dictGet, List.lookup, beq_eq_false_iff_ne.mpr h]
  | cons kv d ih =>
    obtain ⟨k0, t⟩ := kv
    rw [dictSet]
    by_cases h0 : k0 = k
    · rw [if_pos h0]
      subst h0
      simp [dictGet, List.lookup_cons, beq_eq_false_iff_ne.mpr h]
    · rw [if_neg h0]
      rcases eq_or_ne k' k0 with rfl | h1
      · simp [dictGet, List.lookup_cons]
      · simpa [dictGet, List.lookup_cons,
          beq_eq_false_iff_ne.mpr h1] using ih

lemma correctionFor_length (method : String) (ps : List ℚ) :
    (correctionFor method ps).length = ps.length := by
  rw [correctionFor]
  split
  · exact bonferroniCorrection_length ps
  · split
    · exact holmCorrection_length ps
    · exact fdrCorrection_length ps

/-- The copy of the t-test table extended by the two new columns, as built by
apply_multiple_comparison_correction. -/
def augmentedTable (alpha : ℚ) (method : String) (tbl : Table) : Table :=
  (tbl.zip (correctionFor method (tbl.map getPVal))).map (fun rc =>
    rc.1 ++ [("P_Value_" ++ method.toUpper, Val.q rc.2),
      ("Significant_" ++ method.toUpper, Val.b (decide (rc.2 < alpha)))])

lemma apply_correction_ok (st : StatState) (tbl : Table) (method : String)
    (hm : method = "bonferroni" ∨ method = "holm" ∨ method = "fdr_bh")
    (ht : dictGet "ttest" st.results = some tbl) :
    apply_multiple_comparison_correction st method =
      Except.ok
        ({ st with
            results := dictSet ("ttest_" ++ method)
              (augmentedTable st.alpha method tbl) st.results },
          augmentedTable st.alpha method tbl) := by
  rw [apply_multiple_comparison_correction, ht]
  dsimp only
  rw [if_pos hm]
  rfl

end DictFacts

/-- A one-row t-test results table carrying a raw p-value column. -/
def tblC8 : Table := [[("Gene", Val.s "IL6"), ("P_Value", Val.q 0)]]

/-- An engine state holding tblC8 as the stored t-test results. -/
def stC8 : StatState := ⟨1, [("ttest", tblC8)]⟩

/-- Claim C8 counterexample: after applying a bonferroni correction, the table
stored under the ttest key is still the unmodified original — its single row
has no corrected p-value column — so the stored TestResult table is not
augmented in place. -/
theorem c8_stored_ttest_not_augmented :
    (apply_multiple_comparison_correction stC8 "bonferroni").map
        (fun p => dictGet "ttest" p.1.results) = Except.ok (some tblC8) ∧
      tblC8.map (fun row => row.lookup "P_Value_BONFERRONI") = [none] := by
  constructor
  · rw [apply_correction_ok stC8 tblC8 "bonferroni" (Or.inl rfl) rfl]
    simp only [Except.map]
    rw [dictGet_dictSet_ne _ _ _ _ (by decide)]
    rfl
  · rfl

/-- Claim C8 amended: the correction leaves the stored ttest table untouched
and instead stores an augmented copy of it, under the separate key obtained by
appending the method name to ttest_, also returning the copy; the copy keeps
every pre-existing column and value of every row and appends the corrected
p-value column and the corrected significance column. -/
theorem c8_correction_stores_augmented_copy (st : StatState) (tbl : Table)
    (method : String)
    (hm : method = "bonferroni" ∨ method = "holm" ∨ method = "fdr_bh")
    (ht : dictGet "ttest" st.results = some tbl) :
    ∃ st' out,
      apply_multiple_comparison_correction st method = Except.ok (st', out) ∧
        dictGet "ttest" st'.results = some tbl ∧
        dictGet ("ttest_" ++ method) st'.results = some out ∧
        out.length = tbl.length ∧
        ∀ i, i < tbl.length →
          out.getD i [] =
            tbl.getD i [] ++
              [("P_Value_" ++ method.toUpper,
                  Val.q ((correctionFor method (tbl.map getPVal)).getD i 0)),
                ("Significant_" ++ method.toUpper,
                  Val.b (decide
                    ((correctionFor method (tbl.map getPVal)).getD i 0 < st.alpha)))] := by
  have happ := apply_correction_ok st tbl method hm ht
  have hcl : (correctionFor method (tbl.map getPVal)).length = tbl.length := by
    rw [correctionFor_length, List.length_map]
  have hlen : (augmentedTable st.alpha method tbl).length = tbl.length := by
    rw [augmentedTable, List.length_map, List.length_zip, hcl, min_self]
  refine ⟨_, _, happ, ?_, ?_, hlen, ?_⟩
  · have hne : ("ttest" : String) ≠ "ttest_" ++ method := by
      rcases hm with rfl | rfl | rfl <;> decide
    exact (dictGet_dictSet_ne _ _ _ _ hne).trans ht
  · exact dictGet_dictSet_self _ _ _
  · intro i hi
    have hiz : i < (augmentedTable st.alpha method tbl).length := by
      rw [hlen]; exact hi
    have hic : i < (correctionFor method (tbl.map getPVal)).length := by
      rw [hcl]; exact hi
    rw [List.getD_eq_getElem _ _ hiz]
    simp only [augmentedTable, List.getElem_map, List.getElem_zip]
    rw [List.getD_eq_getElem _ _ hi, List.getD_eq_getElem _ _ hic]

/-- Witness for the amended C8 at the concrete one-row state. -/
theorem c8_correction_witness :
    ∃ st' out,
      apply_multiple_comparison_correction stC8 "bonferroni" = Except.ok (st', out) ∧
        dictGet "ttest" st'.results = some tblC8 ∧
        dictGet ("ttest_" ++ "bonferroni") st'.results = some out ∧
        out.length = tblC8.length ∧
        ∀ i, i < tblC8.length →
          out.getD i [] =
            tblC8.getD i [] ++
              [("P_Value_" ++ String.toUpper "bonferroni",
                  Val.q ((correctionFor "bonferroni" (tblC8.map getPVal)).getD i 0)),
                ("Significant_" ++ String.toUpper "bonferroni",
                  Val.b (decide
                    ((correctionFor "bonferroni" (tblC8.map getPVal)).getD i 0 <
                      stC8.alpha)))] :=
  c8_correction_stores_augmented_copy stC8 tblC8 "bonferroni" (Or.inl rfl) rfl

end QPCR

